import Mathlib

/-!
Verification of the motion-estimation core (me.rs): a shallow embedding of
the scalar SAD kernel, the MV-rate model, the RD cost, the predictor
collector, the diamond and exhaustive searches and the multi-resolution
drivers, together with theorems checking the specification's contracts.

Machine integers are modelled as `Nat`/`Int` with explicit two's-complement
wrap-around where the Rust code computes in i16/u32/u64.
-/

/-- Largest u64 value; the sentinel cost of an out-of-range candidate. -/
def U64MAX : Nat := 18446744073709551615

/-- Number of distinct u32 values (2^32). -/
def U32LIM : Nat := 4294967296

/-- A motion vector: `row` and `col` are i16 values in eighth-pel units. -/
structure Mv where
  row : Int
  col : Int
deriving DecidableEq

/-- Reduce an integer to the i16 value with the same low 16 bits
    (two's-complement wrap-around, as Rust i16 arithmetic does on overflow). -/
def wrap16 (x : Int) : Int := (x + 32768) % 65536 - 32768

theorem wrap16_bounds (x : Int) : -32768 ≤ wrap16 x ∧ wrap16 x ≤ 32767 := by
  unfold wrap16
  omega

theorem wrap16_eq_self (x : Int) (h1 : -32768 ≤ x) (h2 : x ≤ 32767) : wrap16 x = x := by
  unfold wrap16
  omega

/-- Fuelled bit length: number of significant bits of `n`, correct whenever
    `n < 2 ^ fuel`.  Used to express i16 `leading_zeros`. -/
def bitLenAux : Nat → Nat → Nat
  | 0, _ => 0
  | fuel + 1, n => if n = 0 then 0 else bitLenAux fuel (n / 2) + 1

theorem bitLenAux_zero (fuel : Nat) : bitLenAux fuel 0 = 0 := by
  cases fuel <;> rfl

theorem bitLenAux_spec (fuel : Nat) : ∀ n, n < 2 ^ fuel →
    n < 2 ^ bitLenAux fuel n ∧
      (n ≠ 0 → 2 ^ (bitLenAux fuel n - 1) ≤ n ∧ 1 ≤ bitLenAux fuel n) := by
  induction fuel with
  | zero =>
    intro n h
    have hn : n = 0 := by simpa using Nat.lt_one_iff.mp (by simpa using h)
    subst hn
    simp [bitLenAux]
  | succ f ih =>
    intro n h
    by_cases h0 : n = 0
    · subst h0
      simp [bitLenAux]
    · have hps : 2 ^ (f + 1) = 2 * 2 ^ f := by
        rw [pow_succ]; ring
      have hrec := ih (n / 2) (by omega)
      simp only [bitLenAux, h0, if_neg, ite_false]
      set k := bitLenAux f (n / 2) with hk
      have hup : n / 2 < 2 ^ k := hrec.1
      have hks : 2 ^ (k + 1) = 2 * 2 ^ k := by
        rw [pow_succ]; ring
      constructor
      · omega
      · intro _
        refine ⟨?_, by omega⟩
        by_cases hh : n / 2 = 0
        · have : n = 1 := by omega
          subst this
          rw [hh] at hk
          rw [hk, bitLenAux_zero]
          norm_num
        · obtain ⟨hlow, hk1⟩ := hrec.2 hh
          have hkp : 2 ^ k = 2 * 2 ^ (k - 1) := by
            conv_lhs => rw [show k = (k - 1) + 1 by omega]
            rw [pow_succ]; ring
          simp only [Nat.add_sub_cancel]
          omega

/-- Significant-bit count of a 16-bit pattern; fuel 16 covers all `n < 65536`. -/
def bitLen (n : Nat) : Nat := bitLenAux 16 n

/-- i16 `leading_zeros`: count of leading zero bits of the low 16 bits of `n`. -/
def lz16 (n : Nat) : Nat := 16 - bitLen (n % 65536)

/-- Per-component rate (`diff_to_rate` inside `get_mv_rate`): unless
    high-precision MVs are allowed the difference is arithmetically shifted
    right by one; a zero result is free, otherwise the rate is twice the
    number of significant bits of the absolute value (taken in i16, so
    `abs` wraps on -32768 exactly as Rust release arithmetic does). -/
def diff_to_rate (diff : Int) (allow_high_precision_mv : Bool) : Nat :=
  let d := if allow_high_precision_mv then diff else diff / 2
  if d = 0 then 0 else 2 * (16 - lz16 d.natAbs)

/-- `get_mv_rate`: sum of the component rates; differences are i16. -/
def get_mv_rate (a b : Mv) (allow_high_precision_mv : Bool) : Nat :=
  diff_to_rate (wrap16 (a.row - b.row)) allow_high_precision_mv +
    diff_to_rate (wrap16 (a.col - b.col)) allow_high_precision_mv

/-- Scalar SAD kernel (`native::get_sad`): sum of absolute differences over
    the `blk_w × blk_h` block, accumulated in u32 (differences are exact in
    i32); the bit-depth argument is unused, exactly as in the source. -/
def get_sad (plane_org plane_ref : Nat → Nat → Nat) (blk_w blk_h : Nat)
    (bit_depth : Nat) : Nat :=
  (∑ r in Finset.range blk_h, ∑ c in Finset.range blk_w,
    ((plane_org r c : Int) - (plane_ref r c : Int)).natAbs) % U32LIM

/-- `compute_mv_rd_cost`: 256·SAD plus rate·lambda in u64 arithmetic, where
    the rate is the minimum of the rate against pmv[0] and the rate against
    pmv[1] plus one. -/
def compute_mv_rd_cost (pmv0 pmv1 : Mv) (lambda : Nat) (hp : Bool)
    (blk_w blk_h bit_depth : Nat) (cand_mv : Mv)
    (plane_org plane_ref : Nat → Nat → Nat) : Nat :=
  let sad := get_sad plane_org plane_ref blk_w blk_h bit_depth
  let rate1 := get_mv_rate cand_mv pmv0 hp
  let rate2 := get_mv_rate cand_mv pmv1 hp
  let rate := min rate1 (rate2 + 1)
  (256 * sad + rate * lambda) % (U64MAX + 1)

/-- `get_mv_rd_cost`: u64::MAX for a candidate outside the MV range
    rectangle, otherwise `compute_mv_rd_cost` against the reference samples
    of the candidate.  The reference samples (the `predict_inter` output in
    sub-pel mode, or the full-pel region at offset (col/8, row/8) from `po`)
    are abstracted as a function of the candidate. -/
def get_mv_rd_cost (mvx_min mvx_max mvy_min mvy_max : Int) (pmv0 pmv1 : Mv)
    (lambda : Nat) (hp : Bool) (blk_w blk_h bit_depth : Nat)
    (plane_org : Nat → Nat → Nat) (ref_samples : Mv → Nat → Nat → Nat)
    (cand_mv : Mv) : Nat :=
  if cand_mv.col < mvx_min ∨ mvx_max < cand_mv.col then U64MAX
  else if cand_mv.row < mvy_min ∨ mvy_max < cand_mv.row then U64MAX
  else
    compute_mv_rd_cost pmv0 pmv1 lambda hp blk_w blk_h bit_depth cand_mv
      plane_org (ref_samples cand_mv)

/-- Membership of a candidate MV in the caller-supplied range rectangle. -/
def inRangeMv (mvx_min mvx_max mvy_min mvy_max : Int) (m : Mv) : Prop :=
  mvx_min ≤ m.col ∧ m.col ≤ mvx_max ∧ mvy_min ≤ m.row ∧ m.row ≤ mvy_max

instance (mvx_min mvx_max mvy_min mvy_max : Int) (m : Mv) :
    Decidable (inRangeMv mvx_min mvx_max mvy_min mvy_max m) := by
  unfold inRangeMv
  exact inferInstance

/-- C1: for plane regions of any bit depth at most 12 and any block of
    supported size (at most 128×128), the scalar SAD kernel returns exactly
    the sum over the rows and columns of the block of the absolute pixel
    differences: the u32 accumulator cannot wrap. -/
theorem get_sad_exact (A B : Nat → Nat → Nat) (w h bd : Nat)
    (hw : w ≤ 128) (hh : h ≤ 128) (hbd : bd ≤ 12)
    (hA : ∀ r c, A r c < 2 ^ bd) (hB : ∀ r c, B r c < 2 ^ bd) :
    get_sad A B w h bd =
      ∑ r in Finset.range h, ∑ c in Finset.range w,
        ((A r c : Int) - (B r c : Int)).natAbs := by
  unfold get_sad
  apply Nat.mod_eq_of_lt
  have hpow : 2 ^ bd ≤ 4096 := by
    calc 2 ^ bd ≤ 2 ^ 12 := Nat.pow_le_pow_right (by norm_num) hbd
    _ = 4096 := by norm_num
  have hterm : ∀ r c, ((A r c : Int) - (B r c : Int)).natAbs ≤ 4095 := by
    intro r c
    have h1 := hA r c
    have h2 := hB r c
    omega
  have hrow : ∀ r, ∑ c in Finset.range w,
      ((A r c : Int) - (B r c : Int)).natAbs ≤ w * 4095 := by
    intro r
    calc ∑ c in Finset.range w, ((A r c : Int) - (B r c : Int)).natAbs
        ≤ ∑ _c in Finset.range w, 4095 :=
          Finset.sum_le_sum (fun c _ => hterm r c)
      _ = w * 4095 := by simp [Finset.sum_const, Finset.card_range, mul_comm]
  calc ∑ r in Finset.range h, ∑ c in Finset.range w,
        ((A r c : Int) - (B r c : Int)).natAbs
      ≤ ∑ _r in Finset.range h, w * 4095 :=
        Finset.sum_le_sum (fun r _ => hrow r)
    _ = h * (w * 4095) := by simp [Finset.sum_const, Finset.card_range, mul_comm]
    _ ≤ 128 * (128 * 4095) := by
        have := Nat.mul_le_mul hw (le_refl 4095)
        exact Nat.mul_le_mul hh (Nat.mul_le_mul hw (le_refl 4095))
    _ < U32LIM := by norm_num [U32LIM]

theorem get_sad_exact_witness :
    get_sad (fun _ _ => 200) (fun _ _ => 3) 4 4 8 =
      ∑ _r in Finset.range 4, ∑ _c in Finset.range 4,
        (((200 : Nat) : Int) - ((3 : Nat) : Int)).natAbs :=
  get_sad_exact (fun _ _ => 200) (fun _ _ => 3) 4 4 8 (by norm_num) (by norm_num)
    (by norm_num) (fun _ _ => by norm_num) (fun _ _ => by norm_num)

theorem bitLen_eq_clog (m : Nat) (h1 : 1 ≤ m) (h2 : m < 65536) :
    bitLen m = Nat.clog 2 (m + 1) := by
  have hm16 : m < 2 ^ 16 := by norm_num [h2]
  obtain ⟨hub, hlb⟩ := bitLenAux_spec 16 m hm16
  obtain ⟨hlow, hk⟩ := hlb (by omega)
  unfold bitLen
  apply le_antisymm
  · have hcl : m + 1 ≤ 2 ^ Nat.clog 2 (m + 1) := Nat.le_pow_clog (by norm_num) _
    have hlt : 2 ^ (bitLenAux 16 m - 1) < 2 ^ Nat.clog 2 (m + 1) :=
      lt_of_le_of_lt hlow (by omega)
    have := (Nat.pow_lt_pow_iff_right (a := 2) (by norm_num)).mp hlt
    omega
  · exact (Nat.le_pow_iff_clog_le (by norm_num)).mp (by omega)

theorem bitLen_le_16 (m : Nat) (h2 : m < 65536) : bitLen m ≤ 16 := by
  obtain ⟨hub, hlb⟩ := bitLenAux_spec 16 m (by norm_num [h2])
  unfold bitLen
  by_cases h0 : m = 0
  · subst h0
    simp [bitLenAux_zero]
  · obtain ⟨hlow, hk⟩ := hlb h0
    by_contra hcon
    have h17 : 17 ≤ bitLenAux 16 m := by omega
    have : 2 ^ 16 ≤ 2 ^ (bitLenAux 16 m - 1) :=
      Nat.pow_le_pow_right (by norm_num) (by omega)
    omega

/-- The spec's per-component rate (§4.2): `2·⌈log2(|d1|+1)⌉` where `d1` is
    the optionally halved difference; written with `Nat.clog` so that it is
    independent of the source's leading-zeros formulation. -/
def rate_spec (d : Int) (hp : Bool) : Nat :=
  let d1 := if hp then d else d / 2
  if d1 = 0 then 0 else 2 * Nat.clog 2 (d1.natAbs + 1)

theorem diff_to_rate_eq_rate_spec (d : Int) (hp : Bool)
    (hlo : -32768 ≤ d) (hhi : d ≤ 32767) :
    diff_to_rate d hp = rate_spec d hp := by
  unfold diff_to_rate rate_spec
  have hd1 : -32768 ≤ (if hp then d else d / 2) ∧ (if hp then d else d / 2) ≤ 32767 := by
    cases hp <;> simp <;> omega
  by_cases h0 : (if hp then d else d / 2) = 0
  · simp only [h0, if_pos, ite_true]
  · simp only [h0, if_neg, ite_false]
    set d1 := if hp then d else d / 2 with hd1def
    have hna1 : 1 ≤ d1.natAbs := by omega
    have hna2 : d1.natAbs < 65536 := by omega
    unfold lz16
    rw [Nat.mod_eq_of_lt hna2, bitLen_eq_clog d1.natAbs hna1 hna2]
    have := bitLen_le_16 d1.natAbs hna2
    rw [← bitLen_eq_clog d1.natAbs hna1 hna2]
    omega

/-- C3: `get_mv_rate` computes, for each component, the spec's rate of the
    i16 component difference (optionally halved by an arithmetic shift, zero
    free, else twice the significant-bit count of the absolute value); in
    particular the rate of an MV against itself is zero. -/
theorem get_mv_rate_formula (a b : Mv) (hp : Bool) :
    get_mv_rate a b hp =
        rate_spec (wrap16 (a.row - b.row)) hp + rate_spec (wrap16 (a.col - b.col)) hp
      ∧ get_mv_rate a a hp = 0 := by
  constructor
  · unfold get_mv_rate
    rw [diff_to_rate_eq_rate_spec _ _ (wrap16_bounds _).1 (wrap16_bounds _).2,
      diff_to_rate_eq_rate_spec _ _ (wrap16_bounds _).1 (wrap16_bounds _).2]
  · unfold get_mv_rate
    have hz : wrap16 (a.row - a.row) = 0 ∧ wrap16 (a.col - a.col) = 0 := by
      unfold wrap16
      omega
    rw [hz.1, hz.2]
    cases hp <;> rfl

theorem diff_to_rate_neg_hp (x : Int) :
    diff_to_rate (wrap16 (-x)) true = diff_to_rate (wrap16 x) true := by
  have hna : (wrap16 (-x)).natAbs = (wrap16 x).natAbs := by
    unfold wrap16
    omega
  unfold diff_to_rate
  simp only [ite_true]
  by_cases h0 : wrap16 x = 0
  · have h0m : wrap16 (-x) = 0 := by omega
    rw [h0, h0m]
  · have h0m : ¬ wrap16 (-x) = 0 := by omega
    rw [if_neg h0, if_neg h0m, hna]

/-- C5 counterexample: MV-rate is not symmetric when high-precision MVs are
    disallowed; a row difference of +1 is shifted to 0 (rate 0) while the
    opposite difference -1 is shifted to -1 (rate 2). -/
theorem mv_rate_symm_counterexample :
    ¬ get_mv_rate ⟨1, 0⟩ ⟨0, 0⟩ false = get_mv_rate ⟨0, 0⟩ ⟨1, 0⟩ false := by
  decide

/-- C5 amended: MV-rate symmetry `mv_rate(a, b, hp) = mv_rate(b, a, hp)`
    holds when the high-precision flag is true (the arithmetic right shift
    applied when it is false breaks symmetry for odd differences). -/
theorem mv_rate_symm_hp (a b : Mv) :
    get_mv_rate a b true = get_mv_rate b a true := by
  unfold get_mv_rate
  rw [show b.row - a.row = -(a.row - b.row) by ring,
    show b.col - a.col = -(a.col - b.col) by ring,
    diff_to_rate_neg_hp, diff_to_rate_neg_hp]

theorem diff_to_rate_le (d : Int) (hp : Bool) : diff_to_rate d hp ≤ 32 := by
  simp only [diff_to_rate]
  split <;> split <;> omega

theorem get_mv_rate_le (a b : Mv) (hp : Bool) : get_mv_rate a b hp ≤ 64 := by
  unfold get_mv_rate
  have h1 := diff_to_rate_le (wrap16 (a.row - b.row)) hp
  have h2 := diff_to_rate_le (wrap16 (a.col - b.col)) hp
  omega

theorem get_sad_lt (A B : Nat → Nat → Nat) (w h bd : Nat) :
    get_sad A B w h bd < U32LIM := by
  unfold get_sad
  exact Nat.mod_lt _ (by norm_num [U32LIM])

theorem compute_mv_rd_cost_eq (pmv0 pmv1 : Mv) (lambda : Nat) (hp : Bool)
    (blk_w blk_h bd : Nat) (cand : Mv) (A B : Nat → Nat → Nat)
    (hl : lambda < U32LIM) :
    compute_mv_rd_cost pmv0 pmv1 lambda hp blk_w blk_h bd cand A B =
        256 * get_sad A B blk_w blk_h bd +
          lambda * min (get_mv_rate cand pmv0 hp) (get_mv_rate cand pmv1 hp + 1)
      ∧ compute_mv_rd_cost pmv0 pmv1 lambda hp blk_w blk_h bd cand A B < U64MAX := by
  unfold compute_mv_rd_cost
  have hsad := get_sad_lt A B blk_w blk_h bd
  have hr1 := get_mv_rate_le cand pmv0 hp
  have hrate : min (get_mv_rate cand pmv0 hp) (get_mv_rate cand pmv1 hp + 1) ≤ 64 :=
    le_trans (min_le_left _ _) hr1
  have hprod : min (get_mv_rate cand pmv0 hp) (get_mv_rate cand pmv1 hp + 1) * lambda
      ≤ 64 * lambda := Nat.mul_le_mul_right lambda hrate
  have hlt : 256 * get_sad A B blk_w blk_h bd +
      min (get_mv_rate cand pmv0 hp) (get_mv_rate cand pmv1 hp + 1) * lambda < U64MAX := by
    unfold U32LIM U64MAX at *
    omega
  constructor
  · rw [Nat.mod_eq_of_lt (by omega)]
    ring
  · rw [Nat.mod_eq_of_lt (by omega)]
    exact hlt

/-- Helper: the RD cost of an out-of-range candidate is u64::MAX. -/
theorem get_mv_rd_cost_out (mvx_min mvx_max mvy_min mvy_max : Int)
    (pmv0 pmv1 : Mv) (lambda : Nat) (hp : Bool) (blk_w blk_h bd : Nat)
    (A : Nat → Nat → Nat) (ref_samples : Mv → Nat → Nat → Nat) (cand : Mv)
    (hout : ¬ inRangeMv mvx_min mvx_max mvy_min mvy_max cand) :
    get_mv_rd_cost mvx_min mvx_max mvy_min mvy_max pmv0 pmv1 lambda hp
      blk_w blk_h bd A ref_samples cand = U64MAX := by
  unfold get_mv_rd_cost
  unfold inRangeMv at hout
  by_cases h1 : cand.col < mvx_min ∨ mvx_max < cand.col
  · rw [if_pos h1]
  · rw [if_neg h1, if_pos (by omega)]

/-- Helper: the RD cost of an in-range candidate is the exact RD formula and
    is strictly below u64::MAX (u32 lambda, u32 SAD, rate at most 64). -/
theorem get_mv_rd_cost_in (mvx_min mvx_max mvy_min mvy_max : Int)
    (pmv0 pmv1 : Mv) (lambda : Nat) (hp : Bool) (blk_w blk_h bd : Nat)
    (A : Nat → Nat → Nat) (ref_samples : Mv → Nat → Nat → Nat) (cand : Mv)
    (hl : lambda < U32LIM)
    (hin : inRangeMv mvx_min mvx_max mvy_min mvy_max cand) :
    get_mv_rd_cost mvx_min mvx_max mvy_min mvy_max pmv0 pmv1 lambda hp
        blk_w blk_h bd A ref_samples cand =
        256 * get_sad A (ref_samples cand) blk_w blk_h bd +
          lambda * min (get_mv_rate cand pmv0 hp) (get_mv_rate cand pmv1 hp + 1)
      ∧ get_mv_rd_cost mvx_min mvx_max mvy_min mvy_max pmv0 pmv1 lambda hp
        blk_w blk_h bd A ref_samples cand < U64MAX := by
  unfold get_mv_rd_cost
  unfold inRangeMv at hin
  rw [if_neg (by omega), if_neg (by omega)]
  exact compute_mv_rd_cost_eq pmv0 pmv1 lambda hp blk_w blk_h bd cand A
    (ref_samples cand) hl

/-- C2: with a u32 lambda, `get_mv_rd_cost` returns u64::MAX exactly for the
    candidates with a component outside the MV range rectangle, and for every
    in-range candidate it returns `256·sad + lambda·min(rate(mv,pmv0),
    rate(mv,pmv1)+1)`, which is strictly below u64::MAX. -/
theorem get_mv_rd_cost_spec (mvx_min mvx_max mvy_min mvy_max : Int)
    (pmv0 pmv1 : Mv) (lambda : Nat) (hp : Bool) (blk_w blk_h bd : Nat)
    (A : Nat → Nat → Nat) (ref_samples : Mv → Nat → Nat → Nat) (cand : Mv)
    (hl : lambda < U32LIM) :
    (get_mv_rd_cost mvx_min mvx_max mvy_min mvy_max pmv0 pmv1 lambda hp
        blk_w blk_h bd A ref_samples cand = U64MAX ↔
      ¬ inRangeMv mvx_min mvx_max mvy_min mvy_max cand) ∧
    (inRangeMv mvx_min mvx_max mvy_min mvy_max cand →
      get_mv_rd_cost mvx_min mvx_max mvy_min mvy_max pmv0 pmv1 lambda hp
          blk_w blk_h bd A ref_samples cand =
          256 * get_sad A (ref_samples cand) blk_w blk_h bd +
            lambda * min (get_mv_rate cand pmv0 hp) (get_mv_rate cand pmv1 hp + 1)
        ∧ get_mv_rd_cost mvx_min mvx_max mvy_min mvy_max pmv0 pmv1 lambda hp
          blk_w blk_h bd A ref_samples cand < U64MAX) := by
  constructor
  · constructor
    · intro heq
      intro hin
      have := (get_mv_rd_cost_in mvx_min mvx_max mvy_min mvy_max pmv0 pmv1
        lambda hp blk_w blk_h bd A ref_samples cand hl hin).2
      omega
    · exact get_mv_rd_cost_out mvx_min mvx_max mvy_min mvy_max pmv0 pmv1
        lambda hp blk_w blk_h bd A ref_samples cand
  · exact get_mv_rd_cost_in mvx_min mvx_max mvy_min mvy_max pmv0 pmv1
      lambda hp blk_w blk_h bd A ref_samples cand hl

theorem get_mv_rd_cost_spec_witness :
    (get_mv_rd_cost (-64) 64 (-64) 64 ⟨0, 0⟩ ⟨0, 0⟩ 7 false 4 4 8
        (fun _ _ => 9) (fun _ _ _ => 2) ⟨8, 16⟩ = U64MAX ↔
      ¬ inRangeMv (-64) 64 (-64) 64 ⟨8, 16⟩) ∧
    (inRangeMv (-64) 64 (-64) 64 ⟨8, 16⟩ →
      get_mv_rd_cost (-64) 64 (-64) 64 ⟨0, 0⟩ ⟨0, 0⟩ 7 false 4 4 8
          (fun _ _ => 9) (fun _ _ _ => 2) ⟨8, 16⟩ =
          256 * get_sad (fun _ _ => 9) (fun _ _ => 2) 4 4 8 +
            7 * min (get_mv_rate ⟨8, 16⟩ ⟨0, 0⟩ false) (get_mv_rate ⟨8, 16⟩ ⟨0, 0⟩ false + 1)
        ∧ get_mv_rd_cost (-64) 64 (-64) 64 ⟨0, 0⟩ ⟨0, 0⟩ 7 false 4 4 8
          (fun _ _ => 9) (fun _ _ _ => 2) ⟨8, 16⟩ < U64MAX) :=
  get_mv_rd_cost_spec (-64) 64 (-64) 64 ⟨0, 0⟩ ⟨0, 0⟩ 7 false 4 4 8
    (fun _ _ => 9) (fun _ _ _ => 2) ⟨8, 16⟩ (by norm_num [U32LIM])

/-- Modelled from the spec: `MotionVector` addition (mc.rs, outside this
    module); §4.4 sums the spatial neighbor MVs component-wise. -/
def mvAdd (a b : Mv) : Mv := ⟨a.row + b.row, a.col + b.col⟩

/-- Modelled from the spec: `MotionVector` division by a count (mc.rs);
    §4.4 divides the component sums by the neighbor count, Rust i16 division
    truncating toward zero. -/
def mvDiv (a : Mv) (n : Int) : Mv := ⟨Int.tdiv a.row n, Int.tdiv a.col n⟩

/-- Modelled from the spec: `quantize_to_fullpel` (mc.rs); §4.4 rounds each
    component toward zero via division by 8 then multiplication by 8. -/
def quantize_to_fullpel (m : Mv) : Mv :=
  ⟨Int.tdiv m.row 8 * 8, Int.tdiv m.col 8 * 8⟩

/-- Modelled from the spec: `MotionVector::is_zero` — both components zero. -/
def mvIsZero (m : Mv) : Prop := m.row = 0 ∧ m.col = 0

instance (m : Mv) : Decidable (mvIsZero m) := by
  unfold mvIsZero
  exact inferInstance

/-- A dense MV grid (`FrameMotionVectors` / `TileMotionVectors`):
    `mvAt r c` is the MV of row `r`, column `c`. -/
structure MvGrid where
  cols : Nat
  rows : Nat
  mvAt : Nat → Nat → Mv

/-- Push a predictor only when it is nonzero (the `!is_zero` guard). -/
def pushNZ (m : Mv) : List Mv := if mvIsZero m then [] else [m]

/-- The spatial (EPZS subset A and B) predictors: left, top and top-right
    neighbors from the current tile's MV grid, each pushed when in bounds
    and nonzero. -/
def spatialPreds (bo_x bo_y cols : Nat) (left top top_right : Mv) : List Mv :=
  (if 0 < bo_x then pushNZ left else []) ++
    (if 0 < bo_y then
      pushNZ top ++ (if bo_x < cols - 1 then pushNZ top_right else [])
    else [])

/-- The neighbors accumulated for the mean predictor (`median_preds`). -/
def medianNeighbors (bo_x bo_y cols : Nat) (left top top_right : Mv) : List Mv :=
  (if 0 < bo_x then [left] else []) ++
    (if 0 < bo_y then
      [top] ++ (if bo_x < cols - 1 then [top_right] else [])
    else [])

/-- The mean ("median") predictor: component-wise sum of the collected
    neighbors divided by their count, quantized to full-pel, pushed when the
    neighbor list is nonempty and the quantized mean is nonzero. -/
def medianPred (bo_x bo_y cols : Nat) (left top top_right : Mv) : List Mv :=
  let preds := medianNeighbors bo_x bo_y cols left top top_right
  if preds.isEmpty then []
  else pushNZ (quantize_to_fullpel (mvDiv (preds.foldl mvAdd ⟨0, 0⟩) preds.length))

/-- The temporal (EPZS subset C) predictors from the previous frame's MV
    grid at the frame-global block position: left, top, right, bottom
    neighbors and the co-located MV, each pushed when in bounds and nonzero. -/
def temporalPreds (fx fy : Nat) (prev : MvGrid) : List Mv :=
  (if 0 < fx then pushNZ (prev.mvAt fy (fx - 1)) else []) ++
    (if 0 < fy then pushNZ (prev.mvAt (fy - 1) fx) else []) ++
    (if fx < prev.cols - 1 then pushNZ (prev.mvAt fy (fx + 1)) else []) ++
    (if fy < prev.rows - 1 then pushNZ (prev.mvAt (fy + 1) fx) else []) ++
    pushNZ (prev.mvAt fy fx)

/-- `get_subset_predictors`: zero MV, quantized coarse MV, spatial
    predictors, mean predictor, then temporal predictors (the previous-frame
    grid argument is the already-selected `frame_mvs[ref_frame_id]`,
    `tile_x`/`tile_y` the tile's offset inside the frame in MI units). -/
def get_subset_predictors (bo_x bo_y : Nat) (cmv : Mv) (tile_mvs : MvGrid)
    (tile_x tile_y : Nat) (frame_ref_opt : Option MvGrid) : List Mv :=
  let left := tile_mvs.mvAt bo_y (bo_x - 1)
  let top := tile_mvs.mvAt (bo_y - 1) bo_x
  let top_right := tile_mvs.mvAt (bo_y - 1) (bo_x + 1)
  let temporal : List Mv :=
    match frame_ref_opt with
    | some prev => temporalPreds (tile_x + bo_x) (tile_y + bo_y) prev
    | none => []
  ⟨0, 0⟩ :: quantize_to_fullpel cmv ::
    (spatialPreds bo_x bo_y tile_mvs.cols left top top_right ++
      medianPred bo_x bo_y tile_mvs.cols left top top_right ++
      temporal)

theorem pushNZ_len (m : Mv) : (pushNZ m).length ≤ 1 := by
  unfold pushNZ
  split <;> simp

theorem ite_len_le (c : Prop) [Decidable c] (l : List Mv) (n : Nat)
    (h : l.length ≤ n) : (if c then l else []).length ≤ n := by
  split
  · exact h
  · simp

theorem spatialPreds_len (bo_x bo_y cols : Nat) (left top top_right : Mv) :
    (spatialPreds bo_x bo_y cols left top top_right).length ≤ 3 := by
  unfold spatialPreds
  rw [List.length_append]
  have h1 := ite_len_le (0 < bo_x) (pushNZ left) 1 (pushNZ_len left)
  have h2 : (pushNZ top ++ (if bo_x < cols - 1 then pushNZ top_right else [])).length ≤ 2 := by
    rw [List.length_append]
    have := pushNZ_len top
    have := ite_len_le (bo_x < cols - 1) (pushNZ top_right) 1 (pushNZ_len top_right)
    omega
  have h3 := ite_len_le (0 < bo_y) _ 2 h2
  omega

theorem medianPred_len (bo_x bo_y cols : Nat) (left top top_right : Mv) :
    (medianPred bo_x bo_y cols left top top_right).length ≤ 1 := by
  simp only [medianPred]
  split
  · simp
  · exact pushNZ_len _

theorem temporalPreds_len (fx fy : Nat) (prev : MvGrid) :
    (temporalPreds fx fy prev).length ≤ 5 := by
  unfold temporalPreds
  simp only [List.length_append]
  have h1 := ite_len_le (0 < fx) _ 1 (pushNZ_len (prev.mvAt fy (fx - 1)))
  have h2 := ite_len_le (0 < fy) _ 1 (pushNZ_len (prev.mvAt (fy - 1) fx))
  have h3 := ite_len_le (fx < prev.cols - 1) _ 1 (pushNZ_len (prev.mvAt fy (fx + 1)))
  have h4 := ite_len_le (fy < prev.rows - 1) _ 1 (pushNZ_len (prev.mvAt (fy + 1) fx))
  have h5 := pushNZ_len (prev.mvAt fy fx)
  omega

/-- C9: the predictor collector pushes at most 11 MVs (1 zero + 1 coarse +
    3 spatial + 1 mean + 5 temporal), so the fixed capacity of its output
    list is never exceeded and no push can panic. -/
theorem get_subset_predictors_capacity (bo_x bo_y : Nat) (cmv : Mv)
    (tile_mvs : MvGrid) (tile_x tile_y : Nat) (frame_ref_opt : Option MvGrid) :
    (get_subset_predictors bo_x bo_y cmv tile_mvs tile_x tile_y frame_ref_opt).length ≤ 11 := by
  unfold get_subset_predictors
  have hs := spatialPreds_len bo_x bo_y tile_mvs.cols
    (tile_mvs.mvAt bo_y (bo_x - 1)) (tile_mvs.mvAt (bo_y - 1) bo_x)
    (tile_mvs.mvAt (bo_y - 1) (bo_x + 1))
  have hm := medianPred_len bo_x bo_y tile_mvs.cols
    (tile_mvs.mvAt bo_y (bo_x - 1)) (tile_mvs.mvAt (bo_y - 1) bo_x)
    (tile_mvs.mvAt (bo_y - 1) (bo_x + 1))
  have ht : (match frame_ref_opt with
      | some prev => temporalPreds (tile_x + bo_x) (tile_y + bo_y) prev
      | none => ([] : List Mv)).length ≤ 5 := by
    cases frame_ref_opt with
    | some prev => exact temporalPreds_len (tile_x + bo_x) (tile_y + bo_y) prev
    | none => simp
  simp only [List.length_cons, List.length_append]
  omega

/-- `MotionEstimation::motion_estimation`: match on the requested reference
    slot; in the `Some` branch run the trait's full-pixel then sub-pixel
    stage (abstracted as state transformers on `(best_mv, lowest_cost)`,
    initialised to the zero MV and u64::MAX) and return the best MV; in the
    `None` branch return the zero MV. -/
def motion_estimation {R : Type} (frames : Nat → Option R) (slot : Nat)
    (full_pixel_me sub_pixel_me : R → Mv × Nat → Mv × Nat) : Mv :=
  match frames slot with
  | some rec => (sub_pixel_me rec (full_pixel_me rec (⟨0, 0⟩, U64MAX))).1
  | none => ⟨0, 0⟩

/-- `MotionEstimation::estimate_motion_ss2`: in the `Some` branch run the
    half-resolution search (abstracted) and return the best MV doubled
    (i16 multiplication); `None` when the reference slot is empty. -/
def estimate_motion_ss2 {R : Type} (frames : Nat → Option R) (ref_idx : Nat)
    (me_ss2 : R → Mv × Nat → Mv × Nat) : Option Mv :=
  match frames ref_idx with
  | some rec =>
      let st := me_ss2 rec (⟨0, 0⟩, U64MAX)
      some ⟨wrap16 (st.1.row * 2), wrap16 (st.1.col * 2)⟩
  | none => none

/-- `estimate_motion_ss4`: in the `Some` branch run the quarter-resolution
    full search (abstracted) and return the best MV times four (i16
    multiplication); `None` when the reference slot is empty. -/
def estimate_motion_ss4 {R : Type} (frames : Nat → Option R) (ref_idx : Nat)
    (search : R → Mv × Nat → Mv × Nat) : Option Mv :=
  match frames ref_idx with
  | some rec =>
      let st := search rec (⟨0, 0⟩, U64MAX)
      some ⟨wrap16 (st.1.row * 4), wrap16 (st.1.col * 4)⟩
  | none => none

/-- C8: when the requested reference slot is absent, `motion_estimation`
    returns the zero MV and `estimate_motion_ss2` / `estimate_motion_ss4`
    return `None` — whatever the search stages would compute, i.e. without
    evaluating any candidate. -/
theorem missing_reference_neutral {R : Type} (frames : Nat → Option R)
    (slot : Nat) (fullpel subpel s2 s4 : R → Mv × Nat → Mv × Nat)
    (h : frames slot = none) :
    motion_estimation frames slot fullpel subpel = ⟨0, 0⟩
    ∧ estimate_motion_ss2 frames slot s2 = none
    ∧ estimate_motion_ss4 frames slot s4 = none := by
  unfold motion_estimation estimate_motion_ss2 estimate_motion_ss4
  rw [h]
  exact ⟨rfl, rfl, rfl⟩

theorem missing_reference_neutral_witness :
    motion_estimation (fun _ => (none : Option Unit)) 0 (fun _ st => st) (fun _ st => st) = ⟨0, 0⟩
    ∧ estimate_motion_ss2 (fun _ => (none : Option Unit)) 0 (fun _ st => st) = none
    ∧ estimate_motion_ss4 (fun _ => (none : Option Unit)) 0 (fun _ st => st) = none :=
  missing_reference_neutral (fun _ => (none : Option Unit)) 0
    (fun _ st => st) (fun _ st => st) (fun _ st => st) (fun _ st => st) rfl

/-- Rust `(lo..=hi).step_by(step)` as a list of integers. -/
def stepList (lo hi : Int) (step : Nat) : List Int :=
  (List.range (if hi < lo then 0 else (hi - lo).toNat / step + 1)).map
    (fun i : Nat => lo + ((step * i : Nat) : Int))

/-- The window scanned by `full_search`, in its iteration order: `y` outer,
    `x` inner (row-major). -/
def searchArea (x_lo x_hi y_lo y_hi : Int) (step : Nat) : List (Int × Int) :=
  (stepList y_lo y_hi step).flatMap
    (fun y => (stepList x_lo x_hi step).map (fun x => (y, x)))

/-- The (cost, MV) pair `full_search` computes at window point `(y, x)`:
    SAD of the block at `po` in the source plane against the block at
    `(x, y)` in the reference plane, the MV `(8·(y−po.y), 8·(x−po.x))` in
    i16 arithmetic, and the RD cost `256·sad + min(rate1, rate2+1)·lambda`
    in u64 arithmetic.  Planes are indexed `(row, col)`. -/
def fsCostMv (blk_h blk_w : Nat) (p_org p_ref : Int → Int → Nat)
    (po_x po_y : Int) (bit_depth lambda : Nat) (pmv0 pmv1 : Mv) (hp : Bool)
    (yx : Int × Int) : Nat × Mv :=
  let sad := get_sad (fun r c => p_org (po_y + r) (po_x + c))
    (fun r c => p_ref (yx.1 + r) (yx.2 + c)) blk_w blk_h bit_depth
  let mv : Mv := ⟨wrap16 (8 * wrap16 (yx.1 - po_y)), wrap16 (8 * wrap16 (yx.2 - po_x))⟩
  let rate1 := get_mv_rate mv pmv0 hp
  let rate2 := get_mv_rate mv pmv1 hp
  let rate := min rate1 (rate2 + 1)
  ((256 * sad + rate * lambda) % (U64MAX + 1), mv)

/-- Rust `Iterator::min_by_key` on cost: folds keeping the accumulator on
    ties, so the first minimum encountered wins; `none` on an empty list. -/
def minByCost : List (Nat × Mv) → Option (Nat × Mv)
  | [] => none
  | x :: xs => some (xs.foldl (fun acc y => if acc.1 ≤ y.1 then acc else y) x)

/-- `full_search`: evaluate every window point and unconditionally store the
    (cost, MV) minimum into `(lowest_cost, best_mv)`.  The incoming state is
    returned only for an empty window, where the source would panic on
    `unwrap` and store nothing. -/
def full_search (x_lo x_hi y_lo y_hi : Int) (blk_h blk_w : Nat)
    (p_org p_ref : Int → Int → Nat) (po_x po_y : Int) (step : Nat)
    (bit_depth lambda : Nat) (pmv0 pmv1 : Mv) (hp : Bool)
    (lowest_cost : Nat) (best_mv : Mv) : Nat × Mv :=
  match minByCost ((searchArea x_lo x_hi y_lo y_hi step).map
      (fsCostMv blk_h blk_w p_org p_ref po_x po_y bit_depth lambda pmv0 pmv1 hp)) with
  | some r => r
  | none => (lowest_cost, best_mv)

theorem foldl_min_first {α : Type} (f : α → Nat × Mv) :
    ∀ (l : List α) (a : α),
      ∃ l1 q l2, a :: l = l1 ++ q :: l2 ∧
        (l.map f).foldl (fun acc y => if acc.1 ≤ y.1 then acc else y) (f a) = f q ∧
        (∀ s ∈ a :: l, (f q).1 ≤ (f s).1) ∧
        (∀ s ∈ l1, (f q).1 < (f s).1) := by
  intro l
  induction l with
  | nil =>
    intro a
    exact ⟨[], a, [], rfl, rfl, by simp, by simp⟩
  | cons b t ih =>
    intro a
    simp only [List.map_cons, List.foldl_cons]
    by_cases hab : (f a).1 ≤ (f b).1
    · rw [if_pos hab]
      obtain ⟨l1, q, l2, hsplit, hfold, hmin, hfirst⟩ := ih a
      cases l1 with
      | nil =>
        simp only [List.nil_append] at hsplit
        have hqa : a = q := (List.cons.injEq _ _ _ _).mp hsplit |>.1
        have hl2 : t = l2 := (List.cons.injEq _ _ _ _).mp hsplit |>.2
        refine ⟨[], q, b :: l2, ?_, hfold, ?_, by simp⟩
        · rw [List.nil_append, ← hqa, ← hl2]
        · intro s hs
          rcases List.mem_cons.mp hs with rfl | hs
          · exact hmin s (by simp)
          · rcases List.mem_cons.mp hs with rfl | hs
            · exact le_trans (hmin a (by simp)) hab
            · exact hmin s (by simp [hs])
      | cons x l1t =>
        simp only [List.cons_append] at hsplit
        have hax : a = x := (List.cons.injEq _ _ _ _).mp hsplit |>.1
        have ht : t = l1t ++ q :: l2 := (List.cons.injEq _ _ _ _).mp hsplit |>.2
        have hqa : (f q).1 < (f a).1 := by
          rw [hax]
          exact hfirst x (by simp)
        refine ⟨a :: b :: l1t, q, l2, ?_, hfold, ?_, ?_⟩
        · simp [ht]
        · intro s hs
          rcases List.mem_cons.mp hs with rfl | hs
          · exact hmin s (by simp)
          · rcases List.mem_cons.mp hs with rfl | hs
            · exact le_trans (le_of_lt hqa) hab
            · exact hmin s (by simp [hs])
        · intro s hs
          rcases List.mem_cons.mp hs with rfl | hs
          · exact hqa
          · rcases List.mem_cons.mp hs with rfl | hs
            · exact lt_of_lt_of_le hqa hab
            · exact hfirst s (by simp [hs])
    · rw [if_neg hab]
      push_neg at hab
      obtain ⟨l1, q, l2, hsplit, hfold, hmin, hfirst⟩ := ih b
      cases l1 with
      | nil =>
        simp only [List.nil_append] at hsplit
        have hqb : b = q := (List.cons.injEq _ _ _ _).mp hsplit |>.1
        have hl2 : t = l2 := (List.cons.injEq _ _ _ _).mp hsplit |>.2
        have hqlt : (f q).1 < (f a).1 := by
          rw [← hqb]
          exact hab
        refine ⟨[a], q, l2, ?_, hfold, ?_, ?_⟩
        · rw [← hqb, ← hl2]
          rfl
        · intro s hs
          rcases List.mem_cons.mp hs with rfl | hs
          · exact le_of_lt hqlt
          · exact hmin s (by rw [hqb, hl2] at hs ⊢; exact hs)
        · intro s hs
          rcases List.mem_singleton.mp hs with rfl
          exact hqlt
      | cons x l1t =>
        simp only [List.cons_append] at hsplit
        have hbx : b = x := (List.cons.injEq _ _ _ _).mp hsplit |>.1
        have ht : t = l1t ++ q :: l2 := (List.cons.injEq _ _ _ _).mp hsplit |>.2
        have hqb : (f q).1 < (f b).1 := by
          rw [hbx]
          exact hfirst x (by simp)
        refine ⟨a :: b :: l1t, q, l2, ?_, hfold, ?_, ?_⟩
        · simp [ht]
        · intro s hs
          rcases List.mem_cons.mp hs with rfl | hs
          · exact le_of_lt (lt_trans hqb hab)
          · exact hmin s hs
        · intro s hs
          rcases List.mem_cons.mp hs with rfl | hs
          · exact lt_trans hqb hab
          · rcases List.mem_cons.mp hs with rfl | hs
            · exact hqb
            · exact hfirst s (by simp [hs])

theorem minByCost_map_first {α : Type} (f : α → Nat × Mv) (l : List α)
    (r : Nat × Mv) (h : minByCost (l.map f) = some r) :
    ∃ l1 q l2, l = l1 ++ q :: l2 ∧ r = f q ∧
      (∀ s ∈ l, (f q).1 ≤ (f s).1) ∧ (∀ s ∈ l1, (f q).1 < (f s).1) := by
  cases l with
  | nil => simp [minByCost] at h
  | cons a t =>
    simp only [List.map_cons, minByCost, Option.some.injEq] at h
    obtain ⟨l1, q, l2, hsplit, hfold, hmin, hfirst⟩ := foldl_min_first f t a
    exact ⟨l1, q, l2, hsplit, by rw [← h, hfold], hmin, hfirst⟩

theorem minByCost_eq_none (l : List (Nat × Mv)) :
    minByCost l = none ↔ l = [] := by
  cases l <;> simp [minByCost]

theorem stepList_mem (lo hi : Int) (step : Nat) (y : Int)
    (hy : y ∈ stepList lo hi step) : lo ≤ y ∧ y ≤ hi := by
  unfold stepList at hy
  rcases List.mem_map.mp hy with ⟨i, him, rfl⟩
  have hilt := List.mem_range.mp him
  by_cases hord : hi < lo
  · rw [if_pos hord] at hilt
    exact absurd hilt (by simp)
  · rw [if_neg hord] at hilt
    push_neg at hord
    have hle : i ≤ (hi - lo).toNat / step := by omega
    have h2 : step * i ≤ step * ((hi - lo).toNat / step) :=
      Nat.mul_le_mul_left step hle
    have h3 : step * ((hi - lo).toNat / step) ≤ (hi - lo).toNat := by
      rw [mul_comm]
      exact Nat.div_mul_le_self _ _
    have h4 : step * i ≤ (hi - lo).toNat := le_trans h2 h3
    omega

theorem stepList_head_mem (lo hi : Int) (step : Nat) (hord : lo ≤ hi) :
    lo ∈ stepList lo hi step := by
  unfold stepList
  refine List.mem_map.mpr ⟨0, ?_, by simp⟩
  rw [if_neg (by omega)]
  exact List.mem_range.mpr (Nat.succ_pos _)

theorem searchArea_mem (x_lo x_hi y_lo y_hi : Int) (step : Nat) (q : Int × Int)
    (hq : q ∈ searchArea x_lo x_hi y_lo y_hi step) :
    q.1 ∈ stepList y_lo y_hi step ∧ q.2 ∈ stepList x_lo x_hi step := by
  unfold searchArea at hq
  rcases List.mem_flatMap.mp hq with ⟨y, hy, hx⟩
  rcases List.mem_map.mp hx with ⟨x, hxm, rfl⟩
  exact ⟨hy, hxm⟩

theorem searchArea_ne_nil (x_lo x_hi y_lo y_hi : Int) (step : Nat)
    (hx : x_lo ≤ x_hi) (hy : y_lo ≤ y_hi) :
    searchArea x_lo x_hi y_lo y_hi step ≠ [] := by
  apply List.ne_nil_of_mem (a := (y_lo, x_lo))
  unfold searchArea
  exact List.mem_flatMap.mpr ⟨y_lo, stepList_head_mem _ _ _ hy,
    List.mem_map.mpr ⟨x_lo, stepList_head_mem _ _ _ hx, rfl⟩⟩

/-- C4: on a nonempty window whose scaled offsets fit in i16, `full_search`
    stores the minimum RD cost over the row-major scan (y outer, x inner)
    together with the MV `(8·(y−po.y), 8·(x−po.x))` attaining it, and the
    point stored is the first one of minimal cost in row-major order (every
    earlier point costs strictly more). -/
theorem full_search_finds_first_min (x_lo x_hi y_lo y_hi : Int)
    (blk_h blk_w : Nat) (p_org p_ref : Int → Int → Nat) (po_x po_y : Int)
    (step : Nat) (bd lambda : Nat) (pmv0 pmv1 : Mv) (hp : Bool)
    (c0 : Nat) (m0 : Mv)
    (hx : x_lo ≤ x_hi) (hy : y_lo ≤ y_hi)
    (hy1 : -32768 ≤ 8 * (y_lo - po_y)) (hy2 : 8 * (y_hi - po_y) ≤ 32767)
    (hx1 : -32768 ≤ 8 * (x_lo - po_x)) (hx2 : 8 * (x_hi - po_x) ≤ 32767) :
    ∃ l1 y x l2,
      searchArea x_lo x_hi y_lo y_hi step = l1 ++ (y, x) :: l2 ∧
      full_search x_lo x_hi y_lo y_hi blk_h blk_w p_org p_ref po_x po_y step
          bd lambda pmv0 pmv1 hp c0 m0 =
        ((fsCostMv blk_h blk_w p_org p_ref po_x po_y bd lambda pmv0 pmv1 hp (y, x)).1,
          ⟨8 * (y - po_y), 8 * (x - po_x)⟩) ∧
      (∀ q ∈ searchArea x_lo x_hi y_lo y_hi step,
        (fsCostMv blk_h blk_w p_org p_ref po_x po_y bd lambda pmv0 pmv1 hp (y, x)).1 ≤
          (fsCostMv blk_h blk_w p_org p_ref po_x po_y bd lambda pmv0 pmv1 hp q).1) ∧
      (∀ q ∈ l1,
        (fsCostMv blk_h blk_w p_org p_ref po_x po_y bd lambda pmv0 pmv1 hp (y, x)).1 <
          (fsCostMv blk_h blk_w p_org p_ref po_x po_y bd lambda pmv0 pmv1 hp q).1) := by
  have hne := searchArea_ne_nil x_lo x_hi y_lo y_hi step hx hy
  set f := fsCostMv blk_h blk_w p_org p_ref po_x po_y bd lambda pmv0 pmv1 hp with hf
  set A := searchArea x_lo x_hi y_lo y_hi step with hA
  cases hmin : minByCost (A.map f) with
  | none =>
    rw [minByCost_eq_none] at hmin
    exact absurd (List.map_eq_nil_iff.mp hmin) hne
  | some r =>
    obtain ⟨l1, q, l2, hsplit, hrq, hminle, hfirst⟩ := minByCost_map_first f A r hmin
    have hqmem : q ∈ A := by
      rw [hsplit]
      exact List.mem_append_right _ (List.mem_cons_self _ _)
    obtain ⟨hy_mem, hx_mem⟩ := searchArea_mem x_lo x_hi y_lo y_hi step q hqmem
    obtain ⟨hylo, hyhi⟩ := stepList_mem y_lo y_hi step q.1 hy_mem
    obtain ⟨hxlo, hxhi⟩ := stepList_mem x_lo x_hi step q.2 hx_mem
    have hw1 : wrap16 (q.1 - po_y) = q.1 - po_y := wrap16_eq_self _ (by omega) (by omega)
    have hw2 : wrap16 (8 * (q.1 - po_y)) = 8 * (q.1 - po_y) := wrap16_eq_self _ (by omega) (by omega)
    have hw3 : wrap16 (q.2 - po_x) = q.2 - po_x := wrap16_eq_self _ (by omega) (by omega)
    have hw4 : wrap16 (8 * (q.2 - po_x)) = 8 * (q.2 - po_x) := wrap16_eq_self _ (by omega) (by omega)
    have hsnd : (f q).2 = ⟨8 * (q.1 - po_y), 8 * (q.2 - po_x)⟩ := by
      have hraw : (f q).2 =
          ⟨wrap16 (8 * wrap16 (q.1 - po_y)), wrap16 (8 * wrap16 (q.2 - po_x))⟩ := rfl
      rw [hraw, hw1, hw3, hw2, hw4]
    have hfs : full_search x_lo x_hi y_lo y_hi blk_h blk_w p_org p_ref po_x po_y
        step bd lambda pmv0 pmv1 hp c0 m0 = r := by
      unfold full_search
      rw [← hA, ← hf, hmin]
    refine ⟨l1, q.1, q.2, l2, hsplit, ?_, hminle, hfirst⟩
    rw [hfs, hrq, ← hsnd]

theorem full_search_finds_first_min_witness :
    ∃ l1 y x l2,
      searchArea 0 1 0 0 1 = l1 ++ (y, x) :: l2 ∧
      full_search 0 1 0 0 2 2 (fun _ _ => 0) (fun _ _ => 0) 0 0 1
          8 0 ⟨0, 0⟩ ⟨0, 0⟩ false 99 ⟨5, 5⟩ =
        ((fsCostMv 2 2 (fun _ _ => 0) (fun _ _ => 0) 0 0 8 0 ⟨0, 0⟩ ⟨0, 0⟩ false (y, x)).1,
          ⟨8 * (y - 0), 8 * (x - 0)⟩) ∧
      (∀ q ∈ searchArea 0 1 0 0 1,
        (fsCostMv 2 2 (fun _ _ => 0) (fun _ _ => 0) 0 0 8 0 ⟨0, 0⟩ ⟨0, 0⟩ false (y, x)).1 ≤
          (fsCostMv 2 2 (fun _ _ => 0) (fun _ _ => 0) 0 0 8 0 ⟨0, 0⟩ ⟨0, 0⟩ false q).1) ∧
      (∀ q ∈ l1,
        (fsCostMv 2 2 (fun _ _ => 0) (fun _ _ => 0) 0 0 8 0 ⟨0, 0⟩ ⟨0, 0⟩ false (y, x)).1 <
          (fsCostMv 2 2 (fun _ _ => 0) (fun _ _ => 0) 0 0 8 0 ⟨0, 0⟩ ⟨0, 0⟩ false q).1) :=
  full_search_finds_first_min 0 1 0 0 2 2 (fun _ _ => 0) (fun _ _ => 0) 0 0 1
    8 0 ⟨0, 0⟩ ⟨0, 0⟩ false 99 ⟨5, 5⟩ (by norm_num) (by norm_num)
    (by norm_num) (by norm_num) (by norm_num) (by norm_num)

theorem full_search_state_irrel (x_lo x_hi y_lo y_hi : Int) (blk_h blk_w : Nat)
    (p_org p_ref : Int → Int → Nat) (po_x po_y : Int) (step : Nat)
    (bd lambda : Nat) (pmv0 pmv1 : Mv) (hp : Bool)
    (hne : searchArea x_lo x_hi y_lo y_hi step ≠ [])
    (c c2 : Nat) (m m2 : Mv) :
    full_search x_lo x_hi y_lo y_hi blk_h blk_w p_org p_ref po_x po_y step
        bd lambda pmv0 pmv1 hp c m =
      full_search x_lo x_hi y_lo y_hi blk_h blk_w p_org p_ref po_x po_y step
        bd lambda pmv0 pmv1 hp c2 m2 := by
  unfold full_search
  cases hmin : minByCost ((searchArea x_lo x_hi y_lo y_hi step).map
      (fsCostMv blk_h blk_w p_org p_ref po_x po_y bd lambda pmv0 pmv1 hp)) with
  | none =>
    rw [minByCost_eq_none] at hmin
    exact absurd (List.map_eq_nil_iff.mp hmin) hne
  | some r => rfl

/-- One window bound of `FullSearch::me_ss2`: the coarse-MV pixel offset
    clamped to the MV range, arithmetically shifted right once for the
    half-resolution plane, added to the plane offset. -/
def ss2Bound (po center bound_lo bound_hi : Int) : Int :=
  po + min (max center (Int.tdiv bound_lo 8)) (Int.tdiv bound_hi 8) / 2

/-- `FullSearch::me_ss2`: one `full_search` per supplied predictor over the
    half-resolution planes, with a window of ±16 pixels around the predictor
    clamped to the MV range, step 1, halved block dimensions and zero pmvs;
    the `(lowest_cost, best_mv)` state threads through the loop. -/
def FullSearch_me_ss2 (pmvs : List (Option Mv))
    (mvx_min mvx_max mvy_min mvy_max : Int) (po_x po_y : Int)
    (blk_h blk_w : Nat) (p_org p_ref : Int → Int → Nat)
    (bit_depth lambda : Nat) (hp : Bool) (st : Nat × Mv) : Nat × Mv :=
  pmvs.foldl (fun acc omv =>
    match omv with
    | some pmv =>
        full_search
          (ss2Bound po_x (Int.tdiv pmv.col 8 - 16) mvx_min mvx_max)
          (ss2Bound po_x (Int.tdiv pmv.col 8 + 16) mvx_min mvx_max)
          (ss2Bound po_y (Int.tdiv pmv.row 8 - 16) mvy_min mvy_max)
          (ss2Bound po_y (Int.tdiv pmv.row 8 + 16) mvy_min mvy_max)
          (blk_h / 2) (blk_w / 2) p_org p_ref po_x po_y 1 bit_depth lambda
          ⟨0, 0⟩ ⟨0, 0⟩ hp acc.1 acc.2
    | none => acc) st

theorem ss2Bound_mono (po blo bhi c1 c2 : Int) (h : c1 ≤ c2) :
    ss2Bound po c1 blo bhi ≤ ss2Bound po c2 blo bhi := by
  unfold ss2Bound
  have h1 : min (max c1 (Int.tdiv blo 8)) (Int.tdiv bhi 8) ≤
      min (max c2 (Int.tdiv blo 8)) (Int.tdiv bhi 8) :=
    min_le_min (max_le_max h le_rfl) le_rfl
  omega

/-- C10: the values `full_search` stores are a function of the window,
    planes and cost parameters alone — for any nonempty window the result is
    independent of the incoming `(lowest_cost, best_mv)` — and therefore
    `FullSearch::me_ss2`, which runs one window per predictor, ends with
    exactly the last predictor's window minimum, regardless of the incoming
    state and of every earlier predictor. -/
theorem full_search_overwrites_state (x_lo x_hi y_lo y_hi : Int)
    (blk_h blk_w : Nat) (p_org p_ref : Int → Int → Nat) (po_x po_y : Int)
    (step : Nat) (bd lambda : Nat) (pmv0 pmv1 : Mv) (hp : Bool)
    (c c2 : Nat) (m m2 : Mv) (l : List (Option Mv)) (p : Mv)
    (mvx_min mvx_max mvy_min mvy_max : Int) (st : Nat × Mv)
    (hx : x_lo ≤ x_hi) (hy : y_lo ≤ y_hi) :
    full_search x_lo x_hi y_lo y_hi blk_h blk_w p_org p_ref po_x po_y step
        bd lambda pmv0 pmv1 hp c m =
      full_search x_lo x_hi y_lo y_hi blk_h blk_w p_org p_ref po_x po_y step
        bd lambda pmv0 pmv1 hp c2 m2
    ∧ FullSearch_me_ss2 (l ++ [some p]) mvx_min mvx_max mvy_min mvy_max
        po_x po_y blk_h blk_w p_org p_ref bd lambda hp st =
      full_search
        (ss2Bound po_x (Int.tdiv p.col 8 - 16) mvx_min mvx_max)
        (ss2Bound po_x (Int.tdiv p.col 8 + 16) mvx_min mvx_max)
        (ss2Bound po_y (Int.tdiv p.row 8 - 16) mvy_min mvy_max)
        (ss2Bound po_y (Int.tdiv p.row 8 + 16) mvy_min mvy_max)
        (blk_h / 2) (blk_w / 2) p_org p_ref po_x po_y 1 bd lambda
        ⟨0, 0⟩ ⟨0, 0⟩ hp U64MAX ⟨0, 0⟩ := by
  constructor
  · exact full_search_state_irrel x_lo x_hi y_lo y_hi blk_h blk_w p_org p_ref
      po_x po_y step bd lambda pmv0 pmv1 hp
      (searchArea_ne_nil x_lo x_hi y_lo y_hi step hx hy) c c2 m m2
  · unfold FullSearch_me_ss2
    rw [List.foldl_append]
    simp only [List.foldl_cons, List.foldl_nil]
    apply full_search_state_irrel
    apply searchArea_ne_nil
    · exact ss2Bound_mono po_x mvx_min mvx_max _ _ (by omega)
    · exact ss2Bound_mono po_y mvy_min mvy_max _ _ (by omega)

theorem full_search_overwrites_state_witness :
    full_search 0 1 0 0 2 2 (fun _ _ => 0) (fun _ _ => 0) 0 0 1
        8 0 ⟨0, 0⟩ ⟨0, 0⟩ false 3 ⟨1, 1⟩ =
      full_search 0 1 0 0 2 2 (fun _ _ => 0) (fun _ _ => 0) 0 0 1
        8 0 ⟨0, 0⟩ ⟨0, 0⟩ false 77 ⟨2, 2⟩
    ∧ FullSearch_me_ss2 ([none] ++ [some ⟨0, 0⟩]) (-64) 64 (-64) 64
        0 0 2 2 (fun _ _ => 0) (fun _ _ => 0) 8 0 false (5, ⟨3, 3⟩) =
      full_search
        (ss2Bound 0 (Int.tdiv (0 : Int) 8 - 16) (-64) 64)
        (ss2Bound 0 (Int.tdiv (0 : Int) 8 + 16) (-64) 64)
        (ss2Bound 0 (Int.tdiv (0 : Int) 8 - 16) (-64) 64)
        (ss2Bound 0 (Int.tdiv (0 : Int) 8 + 16) (-64) 64)
        (2 / 2) (2 / 2) (fun _ _ => 0) (fun _ _ => 0) 0 0 1 8 0
        ⟨0, 0⟩ ⟨0, 0⟩ false U64MAX ⟨0, 0⟩ :=
  full_search_overwrites_state 0 1 0 0 2 2 (fun _ _ => 0) (fun _ _ => 0) 0 0 1
    8 0 ⟨0, 0⟩ ⟨0, 0⟩ false 3 77 ⟨1, 1⟩ ⟨2, 2⟩ [none] ⟨0, 0⟩
    (-64) 64 (-64) 64 (5, ⟨3, 3⟩) (by norm_num) (by norm_num)

/-- The four compass offsets of the diamond pattern, as (row, col) signs. -/
def diamond_pattern : List (Int × Int) := [(1, 0), (0, 1), (-1, 0), (0, -1)]

/-- One diamond candidate: the center displaced by radius times the pattern
    offset, in i16 arithmetic. -/
def diamondCand (center : Mv) (radius : Nat) (p : Int × Int) : Mv :=
  ⟨wrap16 (center.row + radius * p.1), wrap16 (center.col + radius * p.2)⟩

/-- The cheapest of the four diamond candidates: starts from cost u64::MAX
    and the zero MV, updates on strict improvement (first minimum wins). -/
def bestDiamond (cost : Mv → Nat) (center : Mv) (radius : Nat) : Nat × Mv :=
  diamond_pattern.foldl
    (fun acc p =>
      if cost (diamondCand center radius p) < acc.1 then
        (cost (diamondCand center radius p), diamondCand center radius p)
      else acc)
    (U64MAX, ⟨0, 0⟩)

/-- The diamond refinement loop, with explicit fuel: if the center is not
    beaten, either stop (radius reached its end) or halve the radius;
    otherwise move the center to the best candidate.  `none` means the fuel
    ran out before the loop exited. -/
def diamond_loop (cost : Mv → Nat) (radius_end : Nat) :
    Nat → Mv → Nat → Nat → Option (Mv × Nat)
  | 0, _, _, _ => none
  | fuel + 1, center, center_cost, radius =>
    if center_cost ≤ (bestDiamond cost center radius).1 then
      if radius = radius_end then some (center, center_cost)
      else diamond_loop cost radius_end fuel center center_cost (radius / 2)
    else
      diamond_loop cost radius_end fuel (bestDiamond cost center radius).2
        (bestDiamond cost center radius).1 radius

/-- `get_best_predictor`: scan the predictor list for the cheapest MV,
    starting from the zero MV at cost u64::MAX. -/
def get_best_predictor (cost : Mv → Nat) (predictors : List Mv) : Mv × Nat :=
  predictors.foldl
    (fun acc p => if cost p < acc.2 then (p, cost p) else acc)
    (⟨0, 0⟩, U64MAX)

/-- `diamond_me_search`, parameterized by the candidate cost function
    (`get_mv_rd_cost` with every argument but the candidate fixed): radius
    16 down to 8 at full-pel, 4 down to 2 (or 1 with high-precision MVs) at
    sub-pel; seeded by the best predictor. -/
def diamond_me_search (cost : Mv → Nat) (predictors : List Mv)
    (subpixel allow_high_precision_mv : Bool) (fuel : Nat) : Option (Mv × Nat) :=
  let radius : Nat := if subpixel then 4 else 16
  let radius_end : Nat :=
    if subpixel then (if allow_high_precision_mv then 1 else 2) else 8
  diamond_loop cost radius_end fuel (get_best_predictor cost predictors).1
    (get_best_predictor cost predictors).2 radius

theorem get_best_predictor_le (cost : Mv → Nat) (preds : List Mv) :
    ∀ p ∈ preds, (get_best_predictor cost preds).2 ≤ cost p := by
  unfold get_best_predictor
  suffices h : ∀ (init : Mv × Nat),
      (∀ p ∈ preds, (preds.foldl (fun acc p => if cost p < acc.2 then (p, cost p) else acc) init).2 ≤ cost p) ∧
      (preds.foldl (fun acc p => if cost p < acc.2 then (p, cost p) else acc) init).2 ≤ init.2 by
    exact (h (⟨0, 0⟩, U64MAX)).1
  induction preds with
  | nil => exact fun init => ⟨by simp, le_refl _⟩
  | cons a t ih =>
    intro init
    simp only [List.foldl_cons]
    by_cases hc : cost a < init.2
    · rw [if_pos hc]
      refine ⟨?_, le_trans (ih (a, cost a)).2 (le_of_lt hc)⟩
      intro p hp
      rcases List.mem_cons.mp hp with rfl | hp
      · exact (ih (p, cost p)).2
      · exact (ih (a, cost a)).1 p hp
    · rw [if_neg hc]
      push_neg at hc
      refine ⟨?_, (ih init).2⟩
      intro p hp
      rcases List.mem_cons.mp hp with rfl | hp
      · exact le_trans (ih init).2 hc
      · exact (ih init).1 p hp

theorem diamond_loop_terminates (cost : Mv → Nat) (rend : Nat) (hrend : 0 < rend) :
    ∀ (fuel k : Nat) (center : Mv) (ccost : Nat),
      ccost + k < fuel →
      ∃ r, diamond_loop cost rend fuel center ccost (rend * 2 ^ k) = some r ∧
        r.2 ≤ ccost := by
  intro fuel
  induction fuel with
  | zero =>
    intro k center ccost h
    omega
  | succ f ih =>
    intro k center ccost h
    simp only [diamond_loop]
    by_cases hcb : ccost ≤ (bestDiamond cost center (rend * 2 ^ k)).1
    · rw [if_pos hcb]
      by_cases hk : k = 0
      · subst hk
        rw [if_pos (by norm_num)]
        exact ⟨(center, ccost), rfl, le_refl _⟩
      · have h2k : 2 ≤ 2 ^ k := by
          calc 2 = 2 ^ 1 := by norm_num
          _ ≤ 2 ^ k := Nat.pow_le_pow_right (by norm_num) (by omega)
        have hne : rend * 2 ^ k ≠ rend := by nlinarith
        rw [if_neg hne]
        have hdiv : rend * 2 ^ k / 2 = rend * 2 ^ (k - 1) := by
          conv_lhs => rw [show k = (k - 1) + 1 by omega, pow_succ]
          rw [← mul_assoc]
          exact Nat.mul_div_cancel _ (by norm_num)
        rw [hdiv]
        exact ih (k - 1) center ccost (by omega)
    · rw [if_neg hcb]
      push_neg at hcb
      obtain ⟨r, hr, hrle⟩ := ih k (bestDiamond cost center (rend * 2 ^ k)).2
        (bestDiamond cost center (rend * 2 ^ k)).1 (by omega)
      exact ⟨r, hr, le_trans hrle (le_of_lt hcb)⟩

/-- C6: when at least one supplied predictor lies inside the MV range
    rectangle (and lambda is a u32), `diamond_me_search` terminates — fuel
    equal to the initial center cost plus three iterations suffices, since
    every iteration either strictly lowers the center cost or halves the
    radius down to its end value — and the final center cost is strictly
    below u64::MAX, so the assertion closing the function holds. -/
theorem diamond_me_search_terminates_spec (mvx_min mvx_max mvy_min mvy_max : Int)
    (pmv0 pmv1 : Mv) (lambda : Nat) (hp subpixel : Bool) (blk_w blk_h bd : Nat)
    (A : Nat → Nat → Nat) (ref_samples : Mv → Nat → Nat → Nat)
    (predictors : List Mv) (p : Mv)
    (hmem : p ∈ predictors) (hin : inRangeMv mvx_min mvx_max mvy_min mvy_max p)
    (hl : lambda < U32LIM) :
    ∃ r, diamond_me_search
        (get_mv_rd_cost mvx_min mvx_max mvy_min mvy_max pmv0 pmv1 lambda hp
          blk_w blk_h bd A ref_samples)
        predictors subpixel hp
        ((get_best_predictor
          (get_mv_rd_cost mvx_min mvx_max mvy_min mvy_max pmv0 pmv1 lambda hp
            blk_w blk_h bd A ref_samples) predictors).2 + 3)
        = some r ∧ r.2 < U64MAX := by
  set cost := get_mv_rd_cost mvx_min mvx_max mvy_min mvy_max pmv0 pmv1 lambda hp
    blk_w blk_h bd A ref_samples with hcost
  have hplt : cost p < U64MAX :=
    (get_mv_rd_cost_in mvx_min mvx_max mvy_min mvy_max pmv0 pmv1 lambda hp
      blk_w blk_h bd A ref_samples p hl hin).2
  have hinit : (get_best_predictor cost predictors).2 < U64MAX :=
    lt_of_le_of_lt (get_best_predictor_le cost predictors p hmem) hplt
  unfold diamond_me_search
  cases subpixel with
  | false =>
    simp only [Bool.false_eq_true, if_false]
    obtain ⟨r, hr, hrle⟩ := diamond_loop_terminates cost 8 (by norm_num)
      ((get_best_predictor cost predictors).2 + 3) 1
      (get_best_predictor cost predictors).1
      (get_best_predictor cost predictors).2 (by omega)
    norm_num at hr
    exact ⟨r, hr, lt_of_le_of_lt hrle hinit⟩
  | true =>
    cases hp with
    | false =>
      simp only [Bool.false_eq_true, if_false, if_true]
      obtain ⟨r, hr, hrle⟩ := diamond_loop_terminates cost 2 (by norm_num)
        ((get_best_predictor cost predictors).2 + 3) 1
        (get_best_predictor cost predictors).1
        (get_best_predictor cost predictors).2 (by omega)
      norm_num at hr
      exact ⟨r, hr, lt_of_le_of_lt hrle hinit⟩
    | true =>
      simp only [if_true]
      obtain ⟨r, hr, hrle⟩ := diamond_loop_terminates cost 1 (by norm_num)
        ((get_best_predictor cost predictors).2 + 3) 2
        (get_best_predictor cost predictors).1
        (get_best_predictor cost predictors).2 (by omega)
      norm_num at hr
      exact ⟨r, hr, lt_of_le_of_lt hrle hinit⟩

/-- The 3×3 neighborhood offsets (i, j) scanned by the telescopic search,
    in its row-major iteration order. -/
def threeByThree : List (Int × Int) :=
  [(0, 0), (0, 1), (0, 2), (1, 0), (1, 1), (1, 2), (2, 0), (2, 1), (2, 2)]

/-- One visit of the telescopic scan: skip the center (i = j = 1), skip
    out-of-range candidates, otherwise compute the RD cost of the candidate
    `center + step·(i−1, j−1)` (i16 arithmetic; reference samples from
    `predict_inter` abstracted as a function of the candidate) and update
    the `(best_mv, lowest_cost)` state on strict improvement. -/
def telescopicVisit (mvx_min mvx_max mvy_min mvy_max : Int) (pmv0 pmv1 : Mv)
    (lambda : Nat) (hp : Bool) (blk_w blk_h bd : Nat)
    (plane_org : Nat → Nat → Nat) (ref_samples : Mv → Nat → Nat → Nat)
    (center : Mv) (step : Int) (acc : Mv × Nat) (ij : Int × Int) : Mv × Nat :=
  let cand : Mv := ⟨wrap16 (center.row + step * (ij.1 - 1)),
    wrap16 (center.col + step * (ij.2 - 1))⟩
  if ij.1 = 1 ∧ ij.2 = 1 then acc
  else if cand.col < mvx_min ∨ mvx_max < cand.col then acc
  else if cand.row < mvy_min ∨ mvy_max < cand.row then acc
  else
    if compute_mv_rd_cost pmv0 pmv1 lambda hp blk_w blk_h bd cand
        plane_org (ref_samples cand) < acc.2 then
      (cand, compute_mv_rd_cost pmv0 pmv1 lambda hp blk_w blk_h bd cand
        plane_org (ref_samples cand))
    else acc

/-- `telescopic_subpel_search`: step sizes 8, 4, 2 (and 1 when
    high-precision MVs are allowed) in descending order; at each step the
    3×3 neighborhood of the best MV at the start of the step is scanned. -/
def telescopic_subpel_search (mvx_min mvx_max mvy_min mvy_max : Int)
    (pmv0 pmv1 : Mv) (lambda : Nat) (hp : Bool) (blk_w blk_h bd : Nat)
    (plane_org : Nat → Nat → Nat) (ref_samples : Mv → Nat → Nat → Nat)
    (st : Mv × Nat) : Mv × Nat :=
  (if hp then ([8, 4, 2, 1] : List Int) else [8, 4, 2]).foldl
    (fun st0 step =>
      threeByThree.foldl
        (telescopicVisit mvx_min mvx_max mvy_min mvy_max pmv0 pmv1 lambda hp
          blk_w blk_h bd plane_org ref_samples st0.1 step)
        st0)
    st

theorem telescopicVisit_in_range (mvx_min mvx_max mvy_min mvy_max : Int)
    (pmv0 pmv1 : Mv) (lambda : Nat) (hp : Bool) (blk_w blk_h bd : Nat)
    (plane_org : Nat → Nat → Nat) (ref_samples : Mv → Nat → Nat → Nat)
    (center : Mv) (step : Int) (acc : Mv × Nat) (ij : Int × Int)
    (hacc : inRangeMv mvx_min mvx_max mvy_min mvy_max acc.1) :
    inRangeMv mvx_min mvx_max mvy_min mvy_max
      (telescopicVisit mvx_min mvx_max mvy_min mvy_max pmv0 pmv1 lambda hp
        blk_w blk_h bd plane_org ref_samples center step acc ij).1 := by
  simp only [telescopicVisit]
  split_ifs with h1 h2 h3 h4
  any_goals exact hacc
  push_neg at h2 h3
  exact ⟨h2.1, h2.2, h3.1, h3.2⟩

theorem telescopic_fold_in_range (mvx_min mvx_max mvy_min mvy_max : Int)
    (pmv0 pmv1 : Mv) (lambda : Nat) (hp : Bool) (blk_w blk_h bd : Nat)
    (plane_org : Nat → Nat → Nat) (ref_samples : Mv → Nat → Nat → Nat)
    (center : Mv) (step : Int) :
    ∀ (l : List (Int × Int)) (acc : Mv × Nat),
      inRangeMv mvx_min mvx_max mvy_min mvy_max acc.1 →
      inRangeMv mvx_min mvx_max mvy_min mvy_max
        (l.foldl (telescopicVisit mvx_min mvx_max mvy_min mvy_max pmv0 pmv1
          lambda hp blk_w blk_h bd plane_org ref_samples center step) acc).1 := by
  intro l
  induction l with
  | nil =>
    intro acc h
    simpa using h
  | cons ij t ih =>
    intro acc h
    simp only [List.foldl_cons]
    exact ih _ (telescopicVisit_in_range mvx_min mvx_max mvy_min mvy_max pmv0
      pmv1 lambda hp blk_w blk_h bd plane_org ref_samples center step acc ij h)

theorem telescopic_in_range (mvx_min mvx_max mvy_min mvy_max : Int)
    (pmv0 pmv1 : Mv) (lambda : Nat) (hp : Bool) (blk_w blk_h bd : Nat)
    (plane_org : Nat → Nat → Nat) (ref_samples : Mv → Nat → Nat → Nat)
    (st : Mv × Nat)
    (hst : inRangeMv mvx_min mvx_max mvy_min mvy_max st.1) :
    inRangeMv mvx_min mvx_max mvy_min mvy_max
      (telescopic_subpel_search mvx_min mvx_max mvy_min mvy_max pmv0 pmv1
        lambda hp blk_w blk_h bd plane_org ref_samples st).1 := by
  unfold telescopic_subpel_search
  generalize (if hp then ([8, 4, 2, 1] : List Int) else [8, 4, 2]) = steps
  induction steps generalizing st with
  | nil => simpa using hst
  | cons s t ih =>
    simp only [List.foldl_cons]
    exact ih _ (telescopic_fold_in_range mvx_min mvx_max mvy_min mvy_max pmv0
      pmv1 lambda hp blk_w blk_h bd plane_org ref_samples st.1 s threeByThree st hst)

theorem bestDiamond_in_range (mvx_min mvx_max mvy_min mvy_max : Int)
    (cost : Mv → Nat)
    (hcost : ∀ m, ¬ inRangeMv mvx_min mvx_max mvy_min mvy_max m → cost m = U64MAX)
    (center : Mv) (radius : Nat)
    (hlt : (bestDiamond cost center radius).1 < U64MAX) :
    inRangeMv mvx_min mvx_max mvy_min mvy_max (bestDiamond cost center radius).2 := by
  unfold bestDiamond at hlt ⊢
  revert hlt
  suffices h : ∀ (l : List (Int × Int)) (acc : Nat × Mv),
      (acc.1 < U64MAX → inRangeMv mvx_min mvx_max mvy_min mvy_max acc.2) →
      ((l.foldl (fun acc p =>
        if cost (diamondCand center radius p) < acc.1 then
          (cost (diamondCand center radius p), diamondCand center radius p)
        else acc) acc).1 < U64MAX →
        inRangeMv mvx_min mvx_max mvy_min mvy_max
          ((l.foldl (fun acc p =>
            if cost (diamondCand center radius p) < acc.1 then
              (cost (diamondCand center radius p), diamondCand center radius p)
            else acc) acc).2)) by
    exact h diamond_pattern (U64MAX, ⟨0, 0⟩) (fun hlt => absurd hlt (lt_irrefl _))
  intro l
  induction l with
  | nil =>
    intro acc h
    simpa using h
  | cons p t ih =>
    intro acc h
    simp only [List.foldl_cons]
    apply ih
    by_cases hc : cost (diamondCand center radius p) < acc.1
    · rw [if_pos hc]
      intro hlt
      by_contra hout
      rw [hcost _ hout] at hlt
      exact lt_irrefl _ hlt
    · rw [if_neg hc]
      exact h

theorem get_best_predictor_in_range (mvx_min mvx_max mvy_min mvy_max : Int)
    (cost : Mv → Nat)
    (hcost : ∀ m, ¬ inRangeMv mvx_min mvx_max mvy_min mvy_max m → cost m = U64MAX)
    (h0 : inRangeMv mvx_min mvx_max mvy_min mvy_max ⟨0, 0⟩)
    (preds : List Mv) :
    inRangeMv mvx_min mvx_max mvy_min mvy_max (get_best_predictor cost preds).1 ∧
      (get_best_predictor cost preds).2 ≤ U64MAX := by
  unfold get_best_predictor
  suffices h : ∀ (l : List Mv) (acc : Mv × Nat),
      inRangeMv mvx_min mvx_max mvy_min mvy_max acc.1 → acc.2 ≤ U64MAX →
      inRangeMv mvx_min mvx_max mvy_min mvy_max
          ((l.foldl (fun acc p => if cost p < acc.2 then (p, cost p) else acc) acc).1) ∧
        (l.foldl (fun acc p => if cost p < acc.2 then (p, cost p) else acc) acc).2 ≤ U64MAX by
    exact h preds (⟨0, 0⟩, U64MAX) h0 (le_refl _)
  intro l
  induction l with
  | nil =>
    intro acc h1 h2
    exact ⟨by simpa using h1, by simpa using h2⟩
  | cons p t ih =>
    intro acc h1 h2
    simp only [List.foldl_cons]
    by_cases hc : cost p < acc.2
    · rw [if_pos hc]
      have hplt : cost p < U64MAX := lt_of_lt_of_le hc h2
      have hpin : inRangeMv mvx_min mvx_max mvy_min mvy_max p := by
        by_contra hout
        rw [hcost _ hout] at hplt
        exact lt_irrefl _ hplt
      exact ih (p, cost p) hpin (le_of_lt hplt)
    · rw [if_neg hc]
      exact ih acc h1 h2

theorem diamond_loop_in_range (mvx_min mvx_max mvy_min mvy_max : Int)
    (cost : Mv → Nat) (rend : Nat)
    (hcost : ∀ m, ¬ inRangeMv mvx_min mvx_max mvy_min mvy_max m → cost m = U64MAX) :
    ∀ (fuel : Nat) (center : Mv) (ccost radius : Nat) (r : Mv × Nat),
      inRangeMv mvx_min mvx_max mvy_min mvy_max center → ccost ≤ U64MAX →
      diamond_loop cost rend fuel center ccost radius = some r →
      inRangeMv mvx_min mvx_max mvy_min mvy_max r.1 := by
  intro fuel
  induction fuel with
  | zero =>
    intro center ccost radius r hctr hle hrun
    simp [diamond_loop] at hrun
  | succ f ih =>
    intro center ccost radius r hctr hle hrun
    simp only [diamond_loop] at hrun
    by_cases hcb : ccost ≤ (bestDiamond cost center radius).1
    · rw [if_pos hcb] at hrun
      by_cases hre : radius = rend
      · rw [if_pos hre] at hrun
        injection hrun with hr
        rw [← hr]
        exact hctr
      · rw [if_neg hre] at hrun
        exact ih center ccost (radius / 2) r hctr hle hrun
    · rw [if_neg hcb] at hrun
      push_neg at hcb
      have hbd_lt : (bestDiamond cost center radius).1 < U64MAX :=
        lt_of_lt_of_le hcb hle
      have hbd_in := bestDiamond_in_range mvx_min mvx_max mvy_min mvy_max cost
        hcost center radius hbd_lt
      exact ih (bestDiamond cost center radius).2
        (bestDiamond cost center radius).1 radius r hbd_in (le_of_lt hbd_lt) hrun

theorem diamond_me_search_terminates_spec_witness :
    ∃ r, diamond_me_search
        (get_mv_rd_cost (-100) 100 (-100) 100 ⟨0, 0⟩ ⟨0, 0⟩ 1 false 1 1 8
          (fun _ _ => 0) (fun _ _ _ => 0))
        [⟨0, 0⟩] false false
        ((get_best_predictor
          (get_mv_rd_cost (-100) 100 (-100) 100 ⟨0, 0⟩ ⟨0, 0⟩ 1 false 1 1 8
            (fun _ _ => 0) (fun _ _ _ => 0)) [⟨0, 0⟩]).2 + 3)
        = some r ∧ r.2 < U64MAX :=
  diamond_me_search_terminates_spec (-100) 100 (-100) 100 ⟨0, 0⟩ ⟨0, 0⟩ 1
    false false 1 1 8 (fun _ _ => 0) (fun _ _ _ => 0) [⟨0, 0⟩] ⟨0, 0⟩
    (List.mem_singleton.mpr rfl) (by decide) (by norm_num [U32LIM])

/-- C7: whenever the MV range rectangle contains the zero MV (as the derived
    range always does), any MV returned by a terminating `diamond_me_search`
    run lies inside the rectangle — the search only moves the center to
    candidates of cost below u64::MAX, which excludes out-of-range ones —
    and `telescopic_subpel_search` keeps an in-range best MV in range, since
    it explicitly skips out-of-range candidates; this holds even when
    out-of-range predictors were supplied. -/
theorem search_result_in_range (mvx_min mvx_max mvy_min mvy_max : Int)
    (pmv0 pmv1 : Mv) (lambda : Nat) (hp subpixel : Bool) (blk_w blk_h bd : Nat)
    (A : Nat → Nat → Nat) (ref_samples : Mv → Nat → Nat → Nat)
    (predictors : List Mv) (fuel : Nat) (r : Mv × Nat) (st : Mv × Nat)
    (h0 : inRangeMv mvx_min mvx_max mvy_min mvy_max ⟨0, 0⟩)
    (hrun : diamond_me_search
      (get_mv_rd_cost mvx_min mvx_max mvy_min mvy_max pmv0 pmv1 lambda hp
        blk_w blk_h bd A ref_samples) predictors subpixel hp fuel = some r)
    (hst : inRangeMv mvx_min mvx_max mvy_min mvy_max st.1) :
    inRangeMv mvx_min mvx_max mvy_min mvy_max r.1 ∧
      inRangeMv mvx_min mvx_max mvy_min mvy_max
        (telescopic_subpel_search mvx_min mvx_max mvy_min mvy_max pmv0 pmv1
          lambda hp blk_w blk_h bd A ref_samples st).1 := by
  have hcost : ∀ m, ¬ inRangeMv mvx_min mvx_max mvy_min mvy_max m →
      get_mv_rd_cost mvx_min mvx_max mvy_min mvy_max pmv0 pmv1 lambda hp
        blk_w blk_h bd A ref_samples m = U64MAX :=
    fun m hm => get_mv_rd_cost_out mvx_min mvx_max mvy_min mvy_max pmv0 pmv1
      lambda hp blk_w blk_h bd A ref_samples m hm
  constructor
  · unfold diamond_me_search at hrun
    obtain ⟨hin1, hle1⟩ := get_best_predictor_in_range mvx_min mvx_max mvy_min
      mvy_max _ hcost h0 predictors
    exact diamond_loop_in_range mvx_min mvx_max mvy_min mvy_max _ _ hcost fuel
      _ _ _ r hin1 hle1 hrun
  · exact telescopic_in_range mvx_min mvx_max mvy_min mvy_max pmv0 pmv1 lambda
      hp blk_w blk_h bd A ref_samples st hst

theorem search_result_in_range_witness :
    inRangeMv (-16) 16 (-16) 16 ((⟨0, 0⟩, 0) : Mv × Nat).1 ∧
      inRangeMv (-16) 16 (-16) 16
        (telescopic_subpel_search (-16) 16 (-16) 16 ⟨0, 0⟩ ⟨0, 0⟩ 0 false 0 0 8
          (fun _ _ => 0) (fun _ _ _ => 0) (⟨3, 3⟩, 5)).1 :=
  search_result_in_range (-16) 16 (-16) 16 ⟨0, 0⟩ ⟨0, 0⟩ 0 false false 0 0 8
    (fun _ _ => 0) (fun _ _ _ => 0) [⟨0, 0⟩] 5 (⟨0, 0⟩, 0) (⟨3, 3⟩, 5)
    (by decide) (by decide) (by decide)
